import Mathlib

/-!
# Verification of the transcript deduplication / segmentation engine

Shallow embedding of the core of `transcript-server.js`: the line-level
deduplication filter, the lexical similarity scorer, the timestamp-marker
segmenter, the time-code formatters, the word-wrap utility and the SRT
renderer.  JS strings are modelled as `List Char` (the ASCII fragment:
`toLowerCase`, the `\w`/`\s`/`\d` character classes and `trim` are modelled
on ASCII, which covers all inputs considered here).  JS numbers that arise
in this core are exact small rationals, modelled as `ℚ` (the literal `0.8`
is modelled as `4/5`; for the small-denominator ratios produced by the
Jaccard scorer the floating-point comparison against `0.8` agrees with the
rational one).
-/

attribute [local semireducible] Rat.mul Rat.inv Rat.add Rat.sub

namespace Transcript

/-- Strings are modelled as lists of characters. -/
abbrev Str := List Char

/-- Coerce a Lean string literal into the model. -/
def str (s : String) : Str := s.data

/-- JS `\s` / `trim` whitespace class (ASCII fragment). -/
def isWsChar (c : Char) : Bool :=
  c == ' ' || c == '\t' || c == '\n' || c == '\r' || c == '\x0b' || c == '\x0c'

/-- JS `\w` word-character class: `[A-Za-z0-9_]`. -/
def isWordChar (c : Char) : Bool := c.isAlpha || c.isDigit || c == '_'

/-- JS `String.prototype.trim`: strip whitespace from both ends. -/
def trimStr (s : Str) : Str :=
  ((s.dropWhile isWsChar).reverse.dropWhile isWsChar).reverse

/-- Normalisation used throughout the source:
`s.toLowerCase().replace(/[^\w\s]/g, '')`. -/
def normalizeContent (s : Str) : Str :=
  (s.map Char.toLower).filter (fun c => isWordChar c || isWsChar c)

/-- JS `text.split(sep)` for a single-character separator string. -/
def splitChar (sep : Char) : Str → List Str
  | [] => [[]]
  | c :: cs =>
    if c = sep then [] :: splitChar sep cs
    else
      match splitChar sep cs with
      | [] => [[c]]
      | p :: ps => (c :: p) :: ps

/-- JS `lines.join('\n')`. -/
def joinNL : List Str → Str
  | [] => []
  | [l] => l
  | l :: ls => l ++ '\n' :: joinNL ls

mutual

/-- JS `s.split(/\s+/)`, outside a whitespace run; `acc` holds the current
piece reversed.  A maximal whitespace run separates pieces, so a leading or
trailing run contributes an empty piece, exactly as in JS. -/
def splitWsGo : Str → Str → List Str
  | [], acc => [acc.reverse]
  | c :: cs, acc =>
    if isWsChar c then acc.reverse :: splitWsInRun cs else splitWsGo cs (c :: acc)

/-- JS `s.split(/\s+/)`, inside a whitespace run (current piece already
emitted). -/
def splitWsInRun : Str → List Str
  | [] => [[]]
  | c :: cs => if isWsChar c then splitWsInRun cs else splitWsGo cs [c]

end

/-- JS `s.split(/\s+/)`. -/
def splitWs (s : Str) : List Str := splitWsGo s []

/-- Model of `calculateSimilarity` (transcript-server.js:624): Jaccard index over the
word sets obtained by splitting on whitespace; empty operands score 0,
identical operands score 1.  The JS `Set` sizes are modelled by `List.dedup`
lengths. -/
def calculateSimilarity (str1 str2 : Str) : ℚ :=
  if str1 = [] ∨ str2 = [] then 0
  else if str1 = str2 then 1
  else
    let words1 := splitWs str1
    let words2 := splitWs str2
    let nInter := ((words1.dedup).filter (fun w => w ∈ words2)).length
    let nUnion := ((words1 ++ words2).dedup).length
    (nInter : ℚ) / (nUnion : ℚ)

/-!
## Timestamp markers

The regex `\[(\d{1,2}):(\d{2})(?::(\d{2}))?\]` is embedded directly.  The
first group is greedy: two digits are tried first and the matcher backtracks
to one digit when the remainder fails (when the second character is a digit
the one-digit backtrack always fails at the expected `:`, which the code
below reproduces by calling the tail matcher on a list starting with that
digit).
-/

/-- Raw regex match of a bracketed timestamp: the three capture groups and
the overall match length. -/
structure MarkerRaw where
  g1 : Str
  g2 : Str
  g3 : Option Str
  len : Nat
deriving DecidableEq

/-- Match `:(\d{2})(?::(\d{2}))?\]` — the part of the marker pattern after
the first digit group.  Returns groups 2 and 3 and the number of characters
consumed. -/
def matchTail : Str → Option (Str × Option Str × Nat)
  | ':' :: a :: b :: rest =>
    if a.isDigit && b.isDigit then
      match rest with
      | ':' :: c :: d :: ']' :: _ =>
        if c.isDigit && d.isDigit then some ([a, b], some [c, d], 7) else none
      | ']' :: _ => some ([a, b], none, 4)
      | _ => none
    else none
  | _ => none

/-- Match the full marker pattern `\[(\d{1,2}):(\d{2})(?::(\d{2}))?\]` at the
head of the string. -/
def matchMarker : Str → Option MarkerRaw
  | '[' :: a :: rest =>
    if a.isDigit then
      match rest with
      | b :: rest2 =>
        if b.isDigit then
          match matchTail rest2 with
          | some (g2, g3, n) => some ⟨[a, b], g2, g3, 3 + n⟩
          | none =>
            match matchTail rest with
            | some (g2, g3, n) => some ⟨[a], g2, g3, 2 + n⟩
            | none => none
        else
          match matchTail rest with
          | some (g2, g3, n) => some ⟨[a], g2, g3, 2 + n⟩
          | none => none
      | [] => none
    else none
  | _ => none

/-- JS `parseInt` on an all-digit string. -/
def parseIntDigits (s : Str) : Nat :=
  s.foldl (fun n c => 10 * n + (c.toNat - 48)) 0

/-- One entry of the `matches` array built in `parseTextIntoSegments`
(transcript-server.js:676-683). -/
structure MatchRec where
  index : Nat
  length : Nat
  hours : Nat
  minutes : Nat
  seconds : Nat
deriving DecidableEq

/-- Build a `matches` entry from a raw regex match: with three groups the
marker is HH:MM:SS, with two groups it is MM:SS and `hours = 0`
(transcript-server.js:680-682). -/
def mkMatchRec (pos : Nat) (m : MarkerRaw) : MatchRec :=
  { index := pos
    length := m.len
    hours := match m.g3 with | some _ => parseIntDigits m.g1 | none => 0
    minutes := match m.g3 with | some _ => parseIntDigits m.g2 | none => parseIntDigits m.g1
    seconds := match m.g3 with | some g => parseIntDigits g | none => parseIntDigits m.g2 }

/-- Offset `hours*3600 + minutes*60 + seconds` (transcript-server.js:700-702). -/
def offsetOf (m : MatchRec) : Nat :=
  m.hours * 3600 + m.minutes * 60 + m.seconds

/-- Left-to-right scan for all non-overlapping marker matches, like a JS
`regex.exec` loop with the `g` flag.  `skip` counts characters still covered
by the previous match (every match has length at least 6, so after
recording a match at `c` the scan resumes `m.len - 1` characters into
`cs`). -/
def scanGo : Str → Nat → Nat → List MatchRec
  | [], _, _ => []
  | c :: cs, pos, skip =>
    match skip with
    | k + 1 => scanGo cs (pos + 1) k
    | 0 =>
      match matchMarker (c :: cs) with
      | some m => mkMatchRec pos m :: scanGo cs (pos + 1) (m.len - 1)
      | none => scanGo cs (pos + 1) 0

/-- All marker matches of a text, in document order with positions. -/
def scanMarkers (text : Str) : List MatchRec := scanGo text 0 0

/-!
## Segments
-/

/-- A time-coded segment.  The source field `end` is a reserved word in
Lean, so it is called `stop` here. -/
structure Segment where
  start : ℚ
  stop : ℚ
  text : Str
deriving DecidableEq

/-- The marker loop of `parseTextIntoSegments` (transcript-server.js:686-711):
slice the text between consecutive markers, trim it, drop empty or
already-seen (by normalized text) slices, and time-code each kept slice with
its marker's offset (the last segment gets `start + 30`). -/
def segsFromMatches (text : Str) : List Str → List MatchRec → List Segment
  | _, [] => []
  | seen, m :: rest =>
    let startIndex := m.index + m.length
    let endIndex := match rest with | [] => text.length | n :: _ => n.index
    let segmentText := trimStr ((text.drop startIndex).take (endIndex - startIndex))
    let normalizedText := normalizeContent segmentText
    if segmentText ≠ [] ∧ normalizedText ∉ seen then
      { start := ((offsetOf m : Nat) : ℚ)
        stop := match rest with
                | [] => ((offsetOf m : Nat) : ℚ) + 30
                | n :: _ => ((offsetOf n : Nat) : ℚ)
        text := segmentText } :: segsFromMatches text (normalizedText :: seen) rest
    else segsFromMatches text seen rest

/-- JS `text.split(/\n\s*\n/)`: a separator is a newline, a greedy
whitespace run, and a final newline.  With a greedy `\s*` the final `\n` of
a separator is the last newline inside the maximal whitespace run following
the first `\n`.  `skip` counts characters of `cs` still inside the current
separator; `acc` is the current piece reversed. -/
def paraGo : Str → Str → Nat → List Str
  | [], acc, _ => [acc.reverse]
  | c :: cs, acc, skip =>
    match skip with
    | k + 1 => paraGo cs acc k
    | 0 =>
      if c = '\n' then
        let w := cs.takeWhile isWsChar
        if '\n' ∈ w then
          acc.reverse ::
            paraGo cs [] (w.length - (w.reverse.takeWhile (fun d => d ≠ '\n')).length)
        else paraGo cs (c :: acc) 0
      else paraGo cs (c :: acc) 0

/-- JS `text.split(/\n\s*\n/)`. -/
def paraSplit (text : Str) : List Str := paraGo text [] 0

/-- The paragraph fallback of `parseTextIntoSegments`
(transcript-server.js:714-729): `i` is the index in the filtered paragraph
array (`forEach`), `seen` the set of normalized paragraphs already kept. -/
def fallbackGo : Nat → List Str → List Str → List Segment
  | _, _, [] => []
  | i, seen, p :: ps =>
    let normalizedPara := normalizeContent (trimStr p)
    if normalizedPara ∉ seen then
      { start := ((i * 30 : Nat) : ℚ)
        stop := (((i + 1) * 30 : Nat) : ℚ)
        text := trimStr p } :: fallbackGo (i + 1) (normalizedPara :: seen) ps
    else fallbackGo (i + 1) seen ps

/-- Paragraph-based segments, used when the marker loop produced nothing. -/
def fallbackSegments (text : Str) : List Segment :=
  fallbackGo 0 [] ((paraSplit text).filter (fun p => 0 < (trimStr p).length))

/-- Model of `parseTextIntoSegments` (transcript-server.js:667-732). -/
def parseTextIntoSegments (text : Str) : List Segment :=
  let segments := segsFromMatches text [] (scanMarkers text)
  if segments.isEmpty then fallbackSegments text else segments

/-!
## Line-level deduplication
-/

/-- Transient state of one `deduplicateTranscript` invocation: the unbounded
exact-match set `seenContent` and the five-entry similarity window
`recentSegments`. -/
structure DedupState where
  seenContent : List Str
  recentSegments : List Str
deriving DecidableEq

/-- The content of a trimmed line after stripping a leading timestamp
marker, if any (transcript-server.js:580-587). -/
def lineContent (trimmedLine : Str) : Str :=
  match matchMarker trimmedLine with
  | some m => trimStr (trimmedLine.drop m.len)
  | none => trimmedLine

/-- Duplicate test (transcript-server.js:596-606): an exact hit in the seen
set when the normalized content is longer than 20 characters, or a
similarity above 0.8 against one of the last five kept lines. -/
def isDuplicateLine (st : DedupState) (normalizedContent : Str) : Bool :=
  (decide (normalizedContent ∈ st.seenContent) && decide (20 < normalizedContent.length))
    || st.recentSegments.any
        (fun recentSegment =>
          decide ((4 : ℚ) / 5 < calculateSimilarity normalizedContent recentSegment))

/-- State update for a kept line (transcript-server.js:610-616): add the
normalized content to the exact-match set and push it onto the similarity
window, evicting the oldest entry beyond five. -/
def updateState (st : DedupState) (normalizedContent : Str) : DedupState :=
  { seenContent := normalizedContent :: st.seenContent
    recentSegments :=
      let r := st.recentSegments ++ [normalizedContent]
      if 5 < r.length then r.tail else r }

/-- The normalized content of a line as `deduplicateTranscript` computes it:
trim, strip a leading timestamp marker, normalize. -/
def normOfLine (line : Str) : Str := normalizeContent (lineContent (trimStr line))

/-- The per-line loop of `deduplicateTranscript`
(transcript-server.js:572-618): blank lines are kept as empty lines; a
non-duplicate line with content longer than 10 characters is kept and its
normalized content is added to the exact-match set and to the similarity
window (bounded to the last five). -/
def processLines (st : DedupState) : List Str → List Str
  | [] => []
  | line :: rest =>
    if trimStr line = [] then [] :: processLines st rest
    else
      if isDuplicateLine st (normOfLine line) = false
          ∧ 10 < (lineContent (trimStr line)).length then
        line :: processLines (updateState st (normOfLine line)) rest
      else processLines st rest

/-- Model of `deduplicateTranscript` (transcript-server.js:562-621). -/
def deduplicateTranscript (text : Str) : Str :=
  if text = [] then [] else joinNL (processLines ⟨[], []⟩ (splitChar '\n' text))

/-!
## Time-code formatting
-/

/-- The decimal digit character for `d < 10`. -/
def digitChar (d : Nat) : Char := Char.ofNat (48 + d)

/-- JS `Number.prototype.toString` for a non-negative integer, written with
explicit fuel (the first argument) so that it is structurally recursive;
`natRepr` supplies enough fuel for every input. -/
def natReprAux : Nat → Nat → Str
  | 0, _ => []
  | fuel + 1, n => if n < 10 then [digitChar n] else natReprAux fuel (n / 10) ++ [digitChar (n % 10)]

/-- Decimal rendering of a non-negative integer. -/
def natRepr (n : Nat) : Str := natReprAux (n + 1) n

/-- JS `String.prototype.padStart(width, '0')`. -/
def padStartZeros (width : Nat) (s : Str) : Str :=
  List.replicate (width - s.length) '0' ++ s

/-- The JS `%` operator in the floor form `a - b * ⌊a / b⌋`.  JS `%`
truncates toward zero, which coincides with this on the non-negative
arguments `formatSRTTime` is used with (all divisors here are positive). -/
def jsMod (a b : ℚ) : ℚ := a - b * ((⌊a / b⌋ : ℤ) : ℚ)

/-- Model of `formatSRTTime` (transcript-server.js:858-865): hours are
`Math.floor(seconds / 3600)` with no modulo, rendered through
`padStart(2, '0')`; minutes, seconds and milliseconds come from `%` and
`Math.floor`.  `Int.toNat` reflects that only non-negative inputs are
rendered (negative seconds never reach this formatter). -/
def formatSRTTime (seconds : ℚ) : Str :=
  let hours := (⌊seconds / 3600⌋).toNat
  let minutes := (⌊jsMod seconds 3600 / 60⌋).toNat
  let secs := (⌊jsMod seconds 60⌋).toNat
  let ms := (⌊jsMod seconds 1 * 1000⌋).toNat
  padStartZeros 2 (natRepr hours) ++ ':' :: padStartZeros 2 (natRepr minutes)
    ++ ':' :: padStartZeros 2 (natRepr secs) ++ ',' :: padStartZeros 3 (natRepr ms)

/-- JS `String.prototype.replace` with a plain-string pattern replaces only
the first occurrence. -/
def replaceFirst : Str → Char → Char → Str
  | [], _, _ => []
  | c :: cs, a, b => if c = a then b :: cs else c :: replaceFirst cs a b

/-- Model of `formatVTTTime` (transcript-server.js:867-869):
`formatSRTTime(seconds).replace(',', '.')`. -/
def formatVTTTime (seconds : ℚ) : Str := replaceFirst (formatSRTTime seconds) ',' '.'

/-!
## Word wrap
-/

/-- The accumulation loop of `wrapText` (transcript-server.js:878-887):
greedy fill; `currentLine` is flushed when the next word no longer fits and
a pending non-empty line is flushed at the end. -/
def wrapLoop (maxLength : Nat) : List Str → Str → List Str
  | [], currentLine => if currentLine ≠ [] then [currentLine] else []
  | word :: words, currentLine =>
    if currentLine.length + word.length + 1 ≤ maxLength then
      wrapLoop maxLength words (currentLine ++ (if currentLine ≠ [] then ' ' :: word else word))
    else
      (if currentLine ≠ [] then [currentLine] else []) ++ wrapLoop maxLength words word

/-- The list of lines `wrapText` emits: the whole text when it already fits,
otherwise the greedy wrap of its space-separated words. -/
def wrapLines (text : Str) (maxLength : Nat) : List Str :=
  if text.length ≤ maxLength then [text] else wrapLoop maxLength (splitChar ' ' text) []

/-- Model of `wrapText` (transcript-server.js:871-889). -/
def wrapText (text : Str) (maxLength : Nat) : Str :=
  if text.length ≤ maxLength then text else joinNL (wrapLoop maxLength (splitChar ' ' text) [])

/-!
## SRT rendering
-/

/-- The defensive dedup pass of `generateSRTFromGemini`
(transcript-server.js:812-821): keep a segment when its normalized trimmed
text is new and its trimmed text is non-empty. -/
def uniqueSegsGo : List Str → List Segment → List Segment
  | _, [] => []
  | seen, s :: ss =>
    let normalizedText := normalizeContent (trimStr s.text)
    if normalizedText ∉ seen ∧ trimStr s.text ≠ [] then
      s :: uniqueSegsGo (normalizedText :: seen) ss
    else uniqueSegsGo seen ss

/-- The cue-emission loop of `generateSRTFromGemini`
(transcript-server.js:823-828).  `segment.start || (index-1)*8` and
`segment.end || index*8` use JS falsiness: a zero time is replaced by the
8-second-grid fallback. -/
def srtRender (maxLineLength : Nat) : Nat → List Segment → Str
  | _, [] => []
  | index, s :: ss =>
    natRepr index ++ '\n' ::
      (formatSRTTime (if s.start = 0 then (((index - 1) * 8 : Nat) : ℚ) else s.start)
        ++ ' ' :: '-' :: '-' :: '>' :: ' ' ::
          formatSRTTime (if s.stop = 0 then ((index * 8 : Nat) : ℚ) else s.stop))
      ++ '\n' :: wrapText (trimStr s.text) maxLineLength
      ++ '\n' :: '\n' :: srtRender maxLineLength (index + 1) ss

/-- Model of `generateSRTFromGemini` (transcript-server.js:805-831) on a segment
list (the `data.segments` path; `maxLineLength` defaults to 80 at the JS
call sites). -/
def generateSRTFromGemini (segments : List Segment) (maxLineLength : Nat) : Str :=
  srtRender maxLineLength 1 (uniqueSegsGo [] segments)

/-!
## Spec-side formulations (used only to state claims, written from the
spec's words rather than from the source)
-/

/-- The SRT cue block exactly as the spec describes it:
`<index>\n<clock(start)> --> <clock(end)>\n<wrapped text>\n\n`, with the
segment's own start and end times. -/
def srtCueBlock (maxLineLength index : Nat) (s : Segment) : Str :=
  natRepr index ++ '\n' ::
    (formatSRTTime s.start ++ ' ' :: '-' :: '-' :: '>' :: ' ' :: formatSRTTime s.stop)
    ++ '\n' :: wrapText (trimStr s.text) maxLineLength ++ '\n' :: '\n' :: []

/-- Spec-side SRT document: the deduplicated segments numbered contiguously
from 1, each rendered as `srtCueBlock` with its own times. -/
def srtSpec (segments : List Segment) (maxLineLength : Nat) : Str :=
  (List.enumFrom 1 (uniqueSegsGo [] segments)).flatMap
    (fun p => srtCueBlock maxLineLength p.1 p.2)

/-- The subtitle clock as the spec states it: unbounded zero-padded hours
`⌊q/3600⌋`, minutes and seconds zero-padded to 2 digits, milliseconds
`⌊(q mod 1) * 1000⌋` zero-padded to 3 digits. -/
def specSubtitleClock (seconds : ℚ) : Str :=
  padStartZeros 2 (natRepr (⌊seconds / 3600⌋).toNat)
    ++ ':' :: padStartZeros 2 (natRepr ((⌊seconds⌋).toNat / 60 % 60))
    ++ ':' :: padStartZeros 2 (natRepr ((⌊seconds⌋).toNat % 60))
    ++ ',' :: padStartZeros 3 (natRepr (⌊(seconds - ((⌊seconds⌋ : ℤ) : ℚ)) * 1000⌋).toNat)

/-- A string has leading or trailing whitespace. -/
def edgeWs (s : Str) : Bool :=
  (match s.head? with | some c => isWsChar c | none => false)
    || (match s.getLast? with | some c => isWsChar c | none => false)

/-- The two-digit decimal numeral of `n < 100`, used to state the
timestamp-parse claim. -/
def twoDigits (n : Nat) : Str := [digitChar (n / 10), digitChar (n % 10)]

/-!
## Lemmas about the line filter
-/

theorem processLines_cons_blank (st : DedupState) (line : Str) (rest : List Str)
    (h : trimStr line = []) :
    processLines st (line :: rest) = [] :: processLines st rest := by
  simp [processLines, h]

theorem processLines_cons_keep (st : DedupState) (line : Str) (rest : List Str)
    (h : trimStr line ≠ [])
    (hk : isDuplicateLine st (normOfLine line) = false ∧ 10 < (lineContent (trimStr line)).length) :
    processLines st (line :: rest) =
      line :: processLines (updateState st (normOfLine line)) rest := by
  simp only [processLines, if_neg h]
  rw [if_pos hk]

theorem processLines_cons_drop (st : DedupState) (line : Str) (rest : List Str)
    (h : trimStr line ≠ [])
    (hk : ¬(isDuplicateLine st (normOfLine line) = false
      ∧ 10 < (lineContent (trimStr line)).length)) :
    processLines st (line :: rest) = processLines st rest := by
  simp only [processLines, if_neg h]
  rw [if_neg hk]

/-- Re-running the per-line filter with the same starting state on its own
output changes nothing: every kept line passes the same checks again,
because the state evolves identically along the kept lines. -/
theorem processLines_idem (L : List Str) : ∀ st : DedupState,
    processLines st (processLines st L) = processLines st L := by
  induction L with
  | nil => intro st; rfl
  | cons line rest ih =>
    intro st
    by_cases hb : trimStr line = []
    · rw [processLines_cons_blank st line rest hb,
          processLines_cons_blank st [] (processLines st rest) rfl, ih]
    · by_cases hk : isDuplicateLine st (normOfLine line) = false
        ∧ 10 < (lineContent (trimStr line)).length
      · rw [processLines_cons_keep st line rest hb hk,
            processLines_cons_keep st line _ hb hk, ih]
      · rw [processLines_cons_drop st line rest hb hk, ih]

/-- Every output line of the filter is blank or one of the input lines. -/
theorem processLines_mem (L : List Str) : ∀ (st : DedupState) (b : Str),
    b ∈ processLines st L → b = [] ∨ b ∈ L := by
  induction L with
  | nil => intro st b hb; simp [processLines] at hb
  | cons line rest ih =>
    intro st b hb
    by_cases hbl : trimStr line = []
    · rw [processLines_cons_blank st line rest hbl] at hb
      rcases List.mem_cons.mp hb with h | h
      · exact Or.inl h
      · rcases ih st b h with h2 | h2
        · exact Or.inl h2
        · exact Or.inr (List.mem_cons_of_mem _ h2)
    · by_cases hk : isDuplicateLine st (normOfLine line) = false
        ∧ 10 < (lineContent (trimStr line)).length
      · rw [processLines_cons_keep st line rest hbl hk] at hb
        rcases List.mem_cons.mp hb with h | h
        · exact Or.inr (h ▸ List.mem_cons_self _ _)
        · rcases ih _ b h with h2 | h2
          · exact Or.inl h2
          · exact Or.inr (List.mem_cons_of_mem _ h2)
      · rw [processLines_cons_drop st line rest hbl hk] at hb
        rcases ih st b hb with h2 | h2
        · exact Or.inl h2
        · exact Or.inr (List.mem_cons_of_mem _ h2)

/-- A line whose normalized content is already in the seen set and longer
than 20 characters is flagged as a duplicate. -/
theorem isDuplicateLine_false_bound (st : DedupState) (n : Str)
    (h : isDuplicateLine st n = false) (hmem : n ∈ st.seenContent) : n.length ≤ 20 := by
  simp [isDuplicateLine] at h
  rcases h with ⟨h1, _⟩
  by_contra hlen
  have := h1 hmem
  omega

/-- Nothing the filter outputs can share a longer-than-20-character
normalized content with a string already recorded in the seen set. -/
theorem processLines_seen_bound (L : List Str) : ∀ (st : DedupState) (x : Str),
    x ∈ st.seenContent → ∀ b ∈ processLines st L,
      trimStr b ≠ [] → normOfLine b = x → x.length ≤ 20 := by
  induction L with
  | nil => intro st x _ b hb; simp [processLines] at hb
  | cons line rest ih =>
    intro st x hx b hb hbt hbn
    by_cases hbl : trimStr line = []
    · rw [processLines_cons_blank st line rest hbl] at hb
      rcases List.mem_cons.mp hb with h | h
      · subst h; exact absurd rfl hbt
      · exact ih st x hx b h hbt hbn
    · by_cases hk : isDuplicateLine st (normOfLine line) = false
        ∧ 10 < (lineContent (trimStr line)).length
      · rw [processLines_cons_keep st line rest hbl hk] at hb
        rcases List.mem_cons.mp hb with h | h
        · subst h
          exact isDuplicateLine_false_bound st x (hbn ▸ hk.1) hx
        · exact ih _ x (List.mem_cons_of_mem _ hx) b h hbt hbn
      · rw [processLines_cons_drop st line rest hbl hk] at hb
        exact ih st x hx b hb hbt hbn

/-- Pairwise long-normalized-content uniqueness of the filter output. -/
theorem processLines_pairwise (L : List Str) : ∀ st : DedupState,
    (processLines st L).Pairwise
      (fun a b => trimStr a ≠ [] → trimStr b ≠ [] →
        normOfLine b = normOfLine a → (normOfLine a).length ≤ 20) := by
  induction L with
  | nil => intro st; simp [processLines]
  | cons line rest ih =>
    intro st
    by_cases hbl : trimStr line = []
    · rw [processLines_cons_blank st line rest hbl]
      exact List.Pairwise.cons (fun b _ ha _ _ => absurd rfl ha) (ih st)
    · by_cases hk : isDuplicateLine st (normOfLine line) = false
        ∧ 10 < (lineContent (trimStr line)).length
      · rw [processLines_cons_keep st line rest hbl hk]
        refine List.Pairwise.cons ?_ (ih _)
        intro b hb _ hbt hbn
        exact processLines_seen_bound rest (updateState st (normOfLine line)) (normOfLine line)
          (List.mem_cons_self _ _) b hb hbt hbn
      · rw [processLines_cons_drop st line rest hbl hk]
        exact ih st

/-!
## Split / join round trip
-/

theorem splitChar_ne_nil (sep : Char) (s : Str) : splitChar sep s ≠ [] := by
  induction s with
  | nil => simp [splitChar]
  | cons c cs ih =>
    by_cases hc : c = sep
    · simp [splitChar, hc]
    · simp only [splitChar, if_neg hc]
      cases hsp : splitChar sep cs with
      | nil => simp
      | cons q qs => simp

theorem splitChar_not_mem (sep : Char) (s : Str) : ∀ p ∈ splitChar sep s, sep ∉ p := by
  induction s with
  | nil => intro p hp; simp [splitChar] at hp; simp [hp]
  | cons c cs ih =>
    intro p hp
    by_cases hc : c = sep
    · simp only [splitChar, if_pos hc] at hp
      rcases List.mem_cons.mp hp with h | h
      · simp [h]
      · exact ih p h
    · simp only [splitChar, if_neg hc] at hp
      cases hsp : splitChar sep cs with
      | nil => exact absurd hsp (splitChar_ne_nil sep cs)
      | cons q qs =>
        rw [hsp] at hp
        rcases List.mem_cons.mp hp with h | h
        · subst h
          intro hmem
          rcases List.mem_cons.mp hmem with h2 | h2
          · exact hc h2.symm
          · exact ih q (hsp ▸ List.mem_cons_self _ _) h2
        · exact ih p (hsp ▸ List.mem_cons_of_mem _ h)

theorem splitChar_no_sep (sep : Char) (l : Str) (h : sep ∉ l) : splitChar sep l = [l] := by
  induction l with
  | nil => rfl
  | cons c cs ih =>
    have hc : ¬c = sep := fun hh => h (hh ▸ List.mem_cons_self _ _)
    have hcs : sep ∉ cs := fun hh => h (List.mem_cons_of_mem _ hh)
    simp only [splitChar, if_neg hc, ih hcs]

theorem splitChar_cons_ne (sep c : Char) (cs : Str) (hc : ¬c = sep) :
    splitChar sep (c :: cs) =
      match splitChar sep cs with
      | [] => [[c]]
      | p :: ps => (c :: p) :: ps := by
  simp only [splitChar, if_neg hc]

theorem splitChar_append_sep (sep : Char) (l t : Str) (h : sep ∉ l) :
    splitChar sep (l ++ sep :: t) = l :: splitChar sep t := by
  induction l with
  | nil => simp [splitChar]
  | cons c cs ih =>
    have hc : ¬c = sep := fun hh => h (hh ▸ List.mem_cons_self _ _)
    have hcs : sep ∉ cs := fun hh => h (List.mem_cons_of_mem _ hh)
    have hstep : (c :: cs) ++ sep :: t = c :: (cs ++ sep :: t) := rfl
    rw [hstep, splitChar_cons_ne sep c _ hc, ih hcs]

theorem splitChar_joinNL (ls : List Str) (hne : ls ≠ [])
    (hmem : ∀ l ∈ ls, '\n' ∉ l) : splitChar '\n' (joinNL ls) = ls := by
  induction ls with
  | nil => exact absurd rfl hne
  | cons l ls2 ih =>
    cases ls2 with
    | nil => exact splitChar_no_sep '\n' l (hmem l (List.mem_cons_self _ _))
    | cons l2 ls3 =>
      have : joinNL (l :: l2 :: ls3) = l ++ '\n' :: joinNL (l2 :: ls3) := rfl
      rw [this, splitChar_append_sep '\n' l _ (hmem l (List.mem_cons_self _ _)),
        ih (by simp) (fun x hx => hmem x (List.mem_cons_of_mem _ hx))]

/-!
## Claims
-/

/-- C1. Scenario A: on the three-line input with a repeated `[00:05]`
line, line-level deduplication keeps exactly the first `[00:05]` line and
the `[00:40]` line, and segmenting the cleaned text yields the two segments
`{start 5, end 40, "Hello world there"}` and
`{start 40, end 70, "Next part begins"}`. -/
theorem scenarioA_exact_duplicate_removal :
    deduplicateTranscript
        (str "[00:05] Hello world there\n[00:05] Hello world there\n[00:40] Next part begins") =
      str "[00:05] Hello world there\n[00:40] Next part begins" ∧
    parseTextIntoSegments (str "[00:05] Hello world there\n[00:40] Next part begins") =
      [⟨5, 40, str "Hello world there"⟩, ⟨40, 70, str "Next part begins"⟩] :=
  ⟨by decide, by decide⟩

/-- C2. Line-level deduplication is idempotent: re-running
`deduplicateTranscript` on its own output removes no further lines. -/
theorem deduplicateTranscript_idem (t : Str) :
    deduplicateTranscript (deduplicateTranscript t) = deduplicateTranscript t := by
  by_cases ht : t = []
  · subst ht; rfl
  · have hd : deduplicateTranscript t = joinNL (processLines ⟨[], []⟩ (splitChar '\n' t)) := by
      rw [deduplicateTranscript, if_neg ht]
    rw [hd]
    by_cases hj : joinNL (processLines ⟨[], []⟩ (splitChar '\n' t)) = []
    · rw [hj]; rfl
    · have hne : processLines ⟨[], []⟩ (splitChar '\n' t) ≠ [] := by
        intro h; rw [h] at hj; exact hj rfl
      have hmem : ∀ l ∈ processLines ⟨[], []⟩ (splitChar '\n' t), '\n' ∉ l := by
        intro l hl
        rcases processLines_mem _ _ l hl with h | h
        · subst h; simp
        · exact splitChar_not_mem '\n' t l h
      rw [deduplicateTranscript, if_neg hj, splitChar_joinNL _ hne hmem, processLines_idem]

/-- C5, counterexample. A short repeated line survives: `"hello world"`
(normalized length 11, below the `> 20` guard of the exact-duplicate check)
reappears after five other kept lines, outside the 5-entry similarity
window, so the output of `deduplicateTranscript` contains two non-blank
lines with the same normalized content. -/
theorem deduplicateTranscript_short_dup_cex :
    ¬ (splitChar '\n' (deduplicateTranscript (str
          "hello world\nalpha bravo charlie one\ndelta echo foxtrot two\ngolf hotel india three\njuliet kilo lima four\nmike november oscar five\nhello world"))).Pairwise
        (fun a b => trimStr a ≠ [] → trimStr b ≠ [] → normOfLine b ≠ normOfLine a) := by
  decide

/-- C5, amended. Exact duplicates are caught regardless of distance only
for long lines: the output of `deduplicateTranscript` never contains two
non-blank lines with the same normalized content of length greater than 20
(the source guards its unbounded exact-match test with
`normalizedContent.length > 20`; shorter repeats are caught only within the
5-entry similarity window). -/
theorem deduplicateTranscript_no_long_exact_dup (t : Str) :
    (splitChar '\n' (deduplicateTranscript t)).Pairwise
      (fun a b => trimStr a ≠ [] → trimStr b ≠ [] →
        normOfLine b = normOfLine a → (normOfLine a).length ≤ 20) := by
  by_cases ht : t = []
  · subst ht; simp [deduplicateTranscript, splitChar]
  · rw [deduplicateTranscript, if_neg ht]
    by_cases hj : joinNL (processLines ⟨[], []⟩ (splitChar '\n' t)) = []
    · rw [hj]; simp [splitChar]
    · have hne : processLines ⟨[], []⟩ (splitChar '\n' t) ≠ [] := by
        intro h; rw [h] at hj; exact hj rfl
      have hmem : ∀ l ∈ processLines ⟨[], []⟩ (splitChar '\n' t), '\n' ∉ l := by
        intro l hl
        rcases processLines_mem _ _ l hl with h | h
        · subst h; simp
        · exact splitChar_not_mem '\n' t l h
      rw [splitChar_joinNL _ hne hmem]
      exact processLines_pairwise _ _

/-- C3, counterexample. Markers appearing out of chronological order
produce segments whose start times are not non-decreasing. -/
theorem segment_start_order_cex :
    ¬ ((parseTextIntoSegments
          (str "[00:40] first part words [00:05] second part words")).map
        Segment.start).Chain' (· ≤ ·) := by
  have h : (parseTextIntoSegments
      (str "[00:40] first part words [00:05] second part words")).map Segment.start =
      [40, 5] := by decide
  rw [h]
  intro hc
  have h2 : (40 : ℚ) ≤ 5 := (List.chain'_cons.mp hc).1
  norm_num at h2

/-- C4, counterexample. The segmenter only deduplicates exact normalized
matches: two kept segments sharing five of six words have Jaccard
similarity `5/6 > 0.8`. -/
theorem segment_similarity_cex :
    ((parseTextIntoSegments (str
          "[00:05] alpha bravo charlie delta echo\n[00:10] alpha bravo charlie delta echo foxtrot")).map
        Segment.text) =
      [str "alpha bravo charlie delta echo", str "alpha bravo charlie delta echo foxtrot"] ∧
    (4 : ℚ) / 5 <
      calculateSimilarity (normalizeContent (str "alpha bravo charlie delta echo"))
        (normalizeContent (str "alpha bravo charlie delta echo foxtrot")) :=
  ⟨by decide, by decide⟩

/-- The start times of the segments built from a match list form a sublist
of the match offsets taken in document order. -/
theorem segs_start_sublist (text : Str) (ms : List MatchRec) : ∀ seen : List Str,
    List.Sublist ((segsFromMatches text seen ms).map Segment.start)
      (ms.map (fun m => ((offsetOf m : Nat) : ℚ))) := by
  induction ms with
  | nil => intro seen; simp [segsFromMatches]
  | cons m rest ih =>
    intro seen
    simp only [segsFromMatches]
    split
    · simp only [List.map_cons]
      exact List.Sublist.cons₂ _ (ih _)
    · simp only [List.map_cons]
      exact List.Sublist.cons _ (ih _)

/-- Every paragraph-fallback segment built from filtered index `i` onward
starts at or after `30 * i` seconds. -/
theorem fallbackGo_start_lb (ps : List Str) : ∀ (i : Nat) (seen : List Str),
    ∀ sg ∈ fallbackGo i seen ps, ((i * 30 : Nat) : ℚ) ≤ sg.start := by
  induction ps with
  | nil => intro i seen sg hsg; simp [fallbackGo] at hsg
  | cons p rest ih =>
    intro i seen sg hsg
    have hstep : ((i * 30 : Nat) : ℚ) ≤ (((i + 1) * 30 : Nat) : ℚ) :=
      Nat.cast_le.mpr (by omega)
    simp only [fallbackGo] at hsg
    split at hsg
    · rcases List.mem_cons.mp hsg with h | h
      · subst h; exact le_refl _
      · exact le_trans hstep (ih (i + 1) _ sg h)
    · exact le_trans hstep (ih (i + 1) _ sg hsg)

/-- Paragraph-fallback segments have non-decreasing start times. -/
theorem fallbackGo_start_pairwise (ps : List Str) : ∀ (i : Nat) (seen : List Str),
    (fallbackGo i seen ps).Pairwise (fun a b => a.start ≤ b.start) := by
  induction ps with
  | nil => intro i seen; simp [fallbackGo]
  | cons p rest ih =>
    intro i seen
    simp only [fallbackGo]
    split
    · refine List.Pairwise.cons ?_ (ih (i + 1) _)
      intro b hb
      show ((i * 30 : Nat) : ℚ) ≤ b.start
      exact le_trans (Nat.cast_le.mpr (by omega : i * 30 ≤ (i + 1) * 30))
        (fallbackGo_start_lb rest (i + 1) _ b hb)
    · exact ih (i + 1) _

/-- C3, amended. If the timestamp markers of the text appear in
non-decreasing offset order (as in a chronological transcript), the
produced segment list has non-decreasing start times; the paragraph
fallback always has.  (The unconditional claim fails: markers occurring out
of chronological order are kept in document order,
`segment_start_order_cex`.) -/
theorem parseTextIntoSegments_start_sorted (text : Str)
    (h : ((scanMarkers text).map offsetOf).Pairwise (· ≤ ·)) :
    ((parseTextIntoSegments text).map Segment.start).Chain' (· ≤ ·) := by
  simp only [parseTextIntoSegments]
  split
  · rw [List.pairwise_map.symm] at *
    exact (List.pairwise_map.mpr (fallbackGo_start_pairwise _ 0 [])).chain'
  · have hq : ((scanMarkers text).map (fun m => ((offsetOf m : Nat) : ℚ))).Pairwise (· ≤ ·) := by
      rw [List.pairwise_map] at h ⊢
      exact h.imp Nat.cast_le.mpr
    exact (hq.sublist (segs_start_sublist text (scanMarkers text) [])).chain'

/-- C3, witness. A chronologically ordered text satisfies the marker
hypothesis and yields sorted segment starts. -/
theorem parseTextIntoSegments_start_sorted_witness :
    ((parseTextIntoSegments (str "[00:05] hello world one\n[00:40] hello world two")).map
      Segment.start).Chain' (· ≤ ·) :=
  parseTextIntoSegments_start_sorted
    (str "[00:05] hello world one\n[00:40] hello world two") (by decide)

/-- No segment built from a match list carries a normalized text already in
the seen set. -/
theorem segs_norm_not_seen (text : Str) (ms : List MatchRec) : ∀ (seen : List Str) (x : Str),
    x ∈ seen → ∀ sg ∈ segsFromMatches text seen ms, normalizeContent sg.text ≠ x := by
  induction ms with
  | nil => intro seen x _ sg hsg; simp [segsFromMatches] at hsg
  | cons m rest ih =>
    intro seen x hx sg hsg
    simp only [segsFromMatches] at hsg
    split at hsg
    · rename_i hcond
      rcases List.mem_cons.mp hsg with h | h
      · subst h
        intro hcontra
        exact hcond.2 (hcontra ▸ hx)
      · exact ih _ x (List.mem_cons_of_mem _ hx) sg h
    · exact ih _ x hx sg hsg

/-- Segments built from a match list have pairwise distinct normalized
texts. -/
theorem segs_norm_pairwise (text : Str) (ms : List MatchRec) : ∀ seen : List Str,
    (segsFromMatches text seen ms).Pairwise
      (fun a b => normalizeContent a.text ≠ normalizeContent b.text) := by
  induction ms with
  | nil => intro seen; simp [segsFromMatches]
  | cons m rest ih =>
    intro seen
    simp only [segsFromMatches]
    split
    · refine List.Pairwise.cons ?_ (ih _)
      intro b hb
      exact fun hcontra =>
        segs_norm_not_seen text rest _ _ (List.mem_cons_self _ _) b hb hcontra.symm
    · exact ih _

/-- No paragraph-fallback segment carries a normalized text already in the
seen set. -/
theorem fallbackGo_norm_not_seen (ps : List Str) : ∀ (i : Nat) (seen : List Str) (x : Str),
    x ∈ seen → ∀ sg ∈ fallbackGo i seen ps, normalizeContent sg.text ≠ x := by
  induction ps with
  | nil => intro i seen x _ sg hsg; simp [fallbackGo] at hsg
  | cons p rest ih =>
    intro i seen x hx sg hsg
    simp only [fallbackGo] at hsg
    split at hsg
    · rename_i hcond
      rcases List.mem_cons.mp hsg with h | h
      · subst h
        intro hcontra
        exact hcond (hcontra ▸ hx)
      · exact ih (i + 1) _ x (List.mem_cons_of_mem _ hx) sg h
    · exact ih (i + 1) _ x hx sg hsg

/-- Paragraph-fallback segments have pairwise distinct normalized texts. -/
theorem fallbackGo_norm_pairwise (ps : List Str) : ∀ (i : Nat) (seen : List Str),
    (fallbackGo i seen ps).Pairwise
      (fun a b => normalizeContent a.text ≠ normalizeContent b.text) := by
  induction ps with
  | nil => intro i seen; simp [fallbackGo]
  | cons p rest ih =>
    intro i seen
    simp only [fallbackGo]
    split
    · refine List.Pairwise.cons ?_ (ih (i + 1) _)
      intro b hb
      exact fun hcontra =>
        fallbackGo_norm_not_seen rest (i + 1) _ _ (List.mem_cons_self _ _) b hb hcontra.symm
    · exact ih (i + 1) _

/-- C4, amended. No two segments in a produced list have exactly equal
normalized texts.  (The similarity half of the claim fails: the segmenter
performs no Jaccard check, `segment_similarity_cex`.) -/
theorem parseTextIntoSegments_norm_distinct (text : Str) :
    (parseTextIntoSegments text).Pairwise
      (fun a b => normalizeContent a.text ≠ normalizeContent b.text) := by
  simp only [parseTextIntoSegments]
  split
  · exact fallbackGo_norm_pairwise _ 0 []
  · exact segs_norm_pairwise text (scanMarkers text) []

/-- C7, counterexample. A segment with `end = 0` is rendered with the
JS-falsy fallback time `index*8` seconds, not with `toSubtitleClock(0)`, so
the emitted document differs from the block the claim prescribes. -/
theorem generateSRT_block_cex :
    generateSRTFromGemini [⟨1, 0, str "hello world"⟩] 80 ≠
      srtCueBlock 80 1 ⟨1, 0, str "hello world"⟩ := by
  decide

/-- The renderer-side dedup keeps a sublist of the input segments. -/
theorem uniqueSegsGo_sublist (segs : List Segment) : ∀ seen : List Str,
    List.Sublist (uniqueSegsGo seen segs) segs := by
  induction segs with
  | nil => intro seen; simp [uniqueSegsGo]
  | cons s ss ih =>
    intro seen
    simp only [uniqueSegsGo]
    split
    · exact List.Sublist.cons₂ _ (ih _)
    · exact List.Sublist.cons _ (ih _)

/-- No segment kept by the renderer-side dedup carries a normalized text
already in the seen set. -/
theorem uniqueSegsGo_not_seen (segs : List Segment) : ∀ (seen : List Str) (x : Str),
    x ∈ seen → ∀ sg ∈ uniqueSegsGo seen segs, normalizeContent (trimStr sg.text) ≠ x := by
  induction segs with
  | nil => intro seen x _ sg hsg; simp [uniqueSegsGo] at hsg
  | cons s ss ih =>
    intro seen x hx sg hsg
    simp only [uniqueSegsGo] at hsg
    split at hsg
    · rename_i hcond
      rcases List.mem_cons.mp hsg with h | h
      · subst h
        intro hcontra
        exact hcond.1 (hcontra ▸ hx)
      · exact ih _ x (List.mem_cons_of_mem _ hx) sg h
    · exact ih _ x hx sg hsg

/-- Segments kept by the renderer-side dedup have pairwise distinct
normalized texts. -/
theorem uniqueSegsGo_pairwise (segs : List Segment) : ∀ seen : List Str,
    (uniqueSegsGo seen segs).Pairwise
      (fun a b => normalizeContent (trimStr a.text) ≠ normalizeContent (trimStr b.text)) := by
  induction segs with
  | nil => intro seen; simp [uniqueSegsGo]
  | cons s ss ih =>
    intro seen
    simp only [uniqueSegsGo]
    split
    · refine List.Pairwise.cons ?_ (ih _)
      intro b hb
      exact fun hcontra =>
        uniqueSegsGo_not_seen ss _ _ (List.mem_cons_self _ _) b hb hcontra.symm
    · exact ih _

/-- With no zero start or end time in sight, the cue-emission loop produces
exactly the spec's blocks, numbered consecutively from `idx`. -/
theorem srtRender_eq_blocks (maxLineLength : Nat) (segs : List Segment) : ∀ idx : Nat,
    (∀ s ∈ segs, s.start ≠ 0 ∧ s.stop ≠ 0) →
    srtRender maxLineLength idx segs =
      (List.enumFrom idx segs).flatMap (fun p => srtCueBlock maxLineLength p.1 p.2) := by
  induction segs with
  | nil => intro idx _; rfl
  | cons s ss ih =>
    intro idx h
    have hs := h s (List.mem_cons_self _ _)
    simp only [srtRender, List.enumFrom, List.flatMap_cons]
    rw [if_neg hs.1, if_neg hs.2, ih (idx + 1) (fun x hx => h x (List.mem_cons_of_mem _ hx))]
    simp [srtCueBlock, List.append_assoc]

/-- C7, amended. For a segment list with non-empty texts in which every
start and end time is nonzero (a zero time triggers the JS `||` fallback to
the 8-second grid, `generateSRT_block_cex`), the SRT renderer emits exactly
the spec's blocks — dropping every segment whose exact normalized text was
already rendered and numbering the remaining cues contiguously from 1 — and
the rendered segments have pairwise distinct normalized texts. -/
theorem generateSRT_spec_blocks (segments : List Segment) (maxLineLength : Nat)
    (_hne : ∀ s ∈ segments, trimStr s.text ≠ [])
    (hnz : ∀ s ∈ segments, s.start ≠ 0 ∧ s.stop ≠ 0) :
    generateSRTFromGemini segments maxLineLength = srtSpec segments maxLineLength ∧
    (uniqueSegsGo [] segments).Pairwise
      (fun a b => normalizeContent (trimStr a.text) ≠ normalizeContent (trimStr b.text)) := by
  refine ⟨?_, uniqueSegsGo_pairwise segments []⟩
  rw [generateSRTFromGemini, srtSpec]
  refine srtRender_eq_blocks maxLineLength (uniqueSegsGo [] segments) 1 ?_
  intro s hs
  exact hnz s ((uniqueSegsGo_sublist segments []).subset hs)

/-- C7, witness. Scenario D: two segments with identical normalized
text render exactly one cue, numbered 1, in the spec's block format. -/
theorem generateSRT_spec_blocks_witness :
    generateSRTFromGemini [⟨5, 10, str "hello world"⟩, ⟨5, 10, str "hello world"⟩] 80 =
      str "1\n00:00:05,000 --> 00:00:10,000\nhello world\n\n" := by
  have h := (generateSRT_spec_blocks
      [⟨5, 10, str "hello world"⟩, ⟨5, 10, str "hello world"⟩] 80
      (by decide) (by decide)).1
  rw [h]
  decide

/-!
## Time-code arithmetic lemmas
-/

/-- Floor of a rational divided by a positive natural equals integer
division of its floor. -/
theorem floor_div_natCast (q : ℚ) (d : Nat) (hd : 0 < d) :
    ⌊q / ((d : Nat) : ℚ)⌋ = ⌊q⌋ / ((d : Nat) : ℤ) := by
  have hq : ((⌊q⌋ : ℤ) : ℚ) + Int.fract q = q := Int.floor_add_fract q
  have hf0 : 0 ≤ Int.fract q := Int.fract_nonneg q
  have hf1 : Int.fract q < 1 := Int.fract_lt_one q
  have hdz : ((d : Nat) : ℤ) ≠ 0 := by exact_mod_cast Nat.pos_iff_ne_zero.mp hd
  have hdq : 0 < ((d : Nat) : ℚ) := by exact_mod_cast hd
  have hmod0 : 0 ≤ ⌊q⌋ % ((d : Nat) : ℤ) := Int.emod_nonneg ⌊q⌋ hdz
  have hmodd : ⌊q⌋ % ((d : Nat) : ℤ) < ((d : Nat) : ℤ) :=
    Int.emod_lt_of_pos ⌊q⌋ (by exact_mod_cast hd)
  have hde := Int.ediv_add_emod ⌊q⌋ ((d : Nat) : ℤ)
  have hdeq : ((d : Nat) : ℚ) * ((⌊q⌋ / ((d : Nat) : ℤ) : ℤ) : ℚ)
      + ((⌊q⌋ % ((d : Nat) : ℤ) : ℤ) : ℚ) = ((⌊q⌋ : ℤ) : ℚ) := by
    exact_mod_cast congrArg (fun z : ℤ => (z : ℚ)) hde
  have hsplit : q / ((d : Nat) : ℚ) =
      ((⌊q⌋ / ((d : Nat) : ℤ) : ℤ) : ℚ)
        + (((⌊q⌋ % ((d : Nat) : ℤ) : ℤ) : ℚ) + Int.fract q) / ((d : Nat) : ℚ) := by
    field_simp
    linarith [hq, hdeq]
  rw [hsplit, Int.floor_int_add]
  have hinner : ⌊(((⌊q⌋ % ((d : Nat) : ℤ) : ℤ) : ℚ) + Int.fract q) / ((d : Nat) : ℚ)⌋ = 0 := by
    rw [Int.floor_eq_zero_iff]
    constructor
    · apply div_nonneg _ (le_of_lt hdq)
      have : (0 : ℚ) ≤ ((⌊q⌋ % ((d : Nat) : ℤ) : ℤ) : ℚ) := by exact_mod_cast hmod0
      linarith
    · rw [div_lt_one hdq]
      have : ((⌊q⌋ % ((d : Nat) : ℤ) : ℤ) : ℚ) + 1 ≤ ((d : Nat) : ℚ) := by
        exact_mod_cast hmodd
      linarith
  rw [hinner, add_zero]

/-- The JS `%` by a positive natural splits into the integer remainder of
the floor plus the fractional part. -/
theorem jsMod_natCast (q : ℚ) (d : Nat) (hd : 0 < d) :
    jsMod q ((d : Nat) : ℚ) = ((⌊q⌋ % ((d : Nat) : ℤ) : ℤ) : ℚ) + Int.fract q := by
  rw [jsMod, floor_div_natCast q d hd]
  have hq : ((⌊q⌋ : ℤ) : ℚ) + Int.fract q = q := Int.floor_add_fract q
  have hde := Int.ediv_add_emod ⌊q⌋ ((d : Nat) : ℤ)
  have hdeq : ((d : Nat) : ℚ) * ((⌊q⌋ / ((d : Nat) : ℤ) : ℤ) : ℚ)
      + ((⌊q⌋ % ((d : Nat) : ℤ) : ℤ) : ℚ) = ((⌊q⌋ : ℤ) : ℚ) := by
    exact_mod_cast congrArg (fun z : ℤ => (z : ℚ)) hde
  linarith

/-- Floor of an integer-plus-fraction divided by a positive natural. -/
theorem floor_intCast_fract_div (k : ℤ) (q : ℚ) (d : Nat) (hd : 0 < d) :
    ⌊(((k : ℤ) : ℚ) + Int.fract q) / ((d : Nat) : ℚ)⌋ = k / ((d : Nat) : ℤ) := by
  rw [floor_div_natCast _ d hd, Int.floor_int_add, Int.floor_fract, add_zero]

/-- The minutes field of `formatSRTTime` equals the spec's
`⌊q⌋ / 60 mod 60`. -/
theorem formatSRT_minutes (q : ℚ) (hq : 0 ≤ q) :
    (⌊jsMod q 3600 / 60⌋).toNat = (⌊q⌋).toNat / 60 % 60 := by
  have hn : 0 ≤ ⌊q⌋ := Int.floor_nonneg.mpr hq
  have h1 : (3600 : ℚ) = ((3600 : Nat) : ℚ) := by norm_num
  have h2 : (60 : ℚ) = ((60 : Nat) : ℚ) := by norm_num
  rw [h1, jsMod_natCast q 3600 (by norm_num), h2,
    floor_intCast_fract_div (⌊q⌋ % ((3600 : Nat) : ℤ)) q 60 (by norm_num)]
  have h3 : ((3600 : Nat) : ℤ) = 3600 := by norm_num
  have h4 : ((60 : Nat) : ℤ) = 60 := by norm_num
  rw [h3, h4]
  omega

/-- The seconds field of `formatSRTTime` equals the spec's `⌊q⌋ mod 60`. -/
theorem formatSRT_seconds (q : ℚ) (hq : 0 ≤ q) :
    (⌊jsMod q 60⌋).toNat = (⌊q⌋).toNat % 60 := by
  have hn : 0 ≤ ⌊q⌋ := Int.floor_nonneg.mpr hq
  have h2 : (60 : ℚ) = ((60 : Nat) : ℚ) := by norm_num
  rw [h2, jsMod_natCast q 60 (by norm_num), Int.floor_int_add, Int.floor_fract, add_zero]
  have h4 : ((60 : Nat) : ℤ) = 60 := by norm_num
  rw [h4]
  omega

/-- Lemma: `jsMod q 1` is the fractional part `q - ⌊q⌋`. -/
theorem jsMod_one (q : ℚ) : jsMod q 1 = q - ((⌊q⌋ : ℤ) : ℚ) := by
  rw [jsMod, div_one, one_mul]

/-!
## Digit and replacement lemmas
-/

theorem digitChar_isDigit (d : Nat) (hd : d < 10) : (digitChar d).isDigit = true := by
  interval_cases d <;> decide

theorem natReprAux_isDigit (fuel : Nat) : ∀ n : Nat, ∀ c ∈ natReprAux fuel n,
    c.isDigit = true := by
  induction fuel with
  | zero => intro n c hc; simp [natReprAux] at hc
  | succ fuel ih =>
    intro n c hc
    simp only [natReprAux] at hc
    split at hc
    · have h := List.mem_singleton.mp hc
      exact h ▸ digitChar_isDigit n (by omega)
    · rcases List.mem_append.mp hc with h | h
      · exact ih (n / 10) c h
      · have h2 := List.mem_singleton.mp h
        rw [h2]
        exact digitChar_isDigit (n % 10) (Nat.mod_lt n (by omega))

theorem natRepr_isDigit (n : Nat) : ∀ c ∈ natRepr n, c.isDigit = true :=
  natReprAux_isDigit (n + 1) n

theorem comma_not_mem_pad (w n : Nat) : ',' ∉ padStartZeros w (natRepr n) := by
  intro h
  rcases List.mem_append.mp h with h | h
  · have := List.eq_of_mem_replicate h
    exact absurd this (by decide)
  · have := natRepr_isDigit n ',' h
    exact absurd this (by decide)

theorem replaceFirst_append (A B : Str) (a b : Char) (hA : a ∉ A) :
    replaceFirst (A ++ a :: B) a b = A ++ b :: B := by
  induction A with
  | nil => simp [replaceFirst]
  | cons c cs ih =>
    have hc : ¬c = a := fun hh => hA (hh ▸ List.mem_cons_self _ _)
    have hcs : a ∉ cs := fun hh => hA (List.mem_cons_of_mem _ hh)
    simp only [List.cons_append, replaceFirst, if_neg hc]
    show c :: replaceFirst (cs ++ a :: B) a b = c :: (cs ++ b :: B)
    rw [ih hcs]

theorem map_replace_no_occ (l : Str) (a b : Char) (h : a ∉ l) :
    l.map (fun c => if c = a then b else c) = l := by
  have hpt : ∀ c ∈ l, (if c = a then b else c) = id c := by
    intro c hc
    exact if_neg (fun h2 => h (by rw [← h2]; exact hc))
  rw [List.map_congr_left hpt, List.map_id]

theorem map_replace_append (A B : Str) (a b : Char) (hA : a ∉ A) (hB : a ∉ B) :
    (A ++ a :: B).map (fun c => if c = a then b else c) = A ++ b :: B := by
  rw [List.map_append, List.map_cons, if_pos rfl,
    map_replace_no_occ A a b hA, map_replace_no_occ B a b hB]

theorem formatSRTTime_eq_spec (seconds : ℚ) (hq : 0 ≤ seconds) :
    formatSRTTime seconds = specSubtitleClock seconds := by
  simp only [formatSRTTime, specSubtitleClock, jsMod_one,
    formatSRT_minutes seconds hq, formatSRT_seconds seconds hq]

theorem formatVTTTime_eq_spec (seconds : ℚ) (hq : 0 ≤ seconds) :
    formatVTTTime seconds =
      (specSubtitleClock seconds).map (fun c => if c = ',' then '.' else c) := by
  rw [formatVTTTime, formatSRTTime_eq_spec seconds hq]
  have hshape : specSubtitleClock seconds =
      (padStartZeros 2 (natRepr (⌊seconds / 3600⌋).toNat)
        ++ ':' :: (padStartZeros 2 (natRepr ((⌊seconds⌋).toNat / 60 % 60))
        ++ ':' :: padStartZeros 2 (natRepr ((⌊seconds⌋).toNat % 60))))
      ++ ',' :: padStartZeros 3 (natRepr (⌊(seconds - ((⌊seconds⌋ : ℤ) : ℚ)) * 1000⌋).toNat) := by
    simp [specSubtitleClock, List.append_assoc]
  have hA : ',' ∉ padStartZeros 2 (natRepr (⌊seconds / 3600⌋).toNat)
      ++ ':' :: (padStartZeros 2 (natRepr ((⌊seconds⌋).toNat / 60 % 60))
      ++ ':' :: padStartZeros 2 (natRepr ((⌊seconds⌋).toNat % 60))) := by
    intro hmem
    rcases List.mem_append.mp hmem with h | h
    · exact comma_not_mem_pad 2 _ h
    · rcases List.mem_cons.mp h with h | h
      · exact absurd h (by decide)
      · rcases List.mem_append.mp h with h | h
        · exact comma_not_mem_pad 2 _ h
        · rcases List.mem_cons.mp h with h | h
          · exact absurd h (by decide)
          · exact comma_not_mem_pad 2 _ h
  have hB : ',' ∉ padStartZeros 3 (natRepr (⌊(seconds - ((⌊seconds⌋ : ℤ) : ℚ)) * 1000⌋).toNat) :=
    comma_not_mem_pad 3 _
  rw [hshape, replaceFirst_append _ _ _ _ hA, map_replace_append _ _ _ _ hA hB]

/-- C8. For non-negative seconds the subtitle clock renders
`HH:MM:SS,mmm` exactly as the spec states it — hours `⌊q/3600⌋` with no
modulo 24 and padded to at least two digits, minutes `⌊q⌋/60 mod 60` and
seconds `⌊q⌋ mod 60` padded to two digits, milliseconds
`⌊(q mod 1)*1000⌋` padded to three digits — and the VTT clock is the
identical string with the `,` replaced by `.`. -/
theorem formatTimes_match_spec (seconds : ℚ) (hq : 0 ≤ seconds) :
    formatSRTTime seconds = specSubtitleClock seconds ∧
    formatVTTTime seconds =
      (specSubtitleClock seconds).map (fun c => if c = ',' then '.' else c) :=
  ⟨formatSRTTime_eq_spec seconds hq, formatVTTTime_eq_spec seconds hq⟩

/-- C8, witness. At 3723.5 seconds both clocks agree with the spec's
format and render `01:02:03,500` / `01:02:03.500`. -/
theorem formatTimes_match_spec_witness :
    (formatSRTTime (7447 / 2) = specSubtitleClock (7447 / 2) ∧
      formatVTTTime (7447 / 2) =
        (specSubtitleClock (7447 / 2)).map (fun c => if c = ',' then '.' else c)) ∧
    specSubtitleClock (7447 / 2) = str "01:02:03,500" :=
  ⟨formatTimes_match_spec (7447 / 2) (by norm_num), by decide⟩

/-!
## Word-wrap lemmas
-/

/-- Every line the greedy wrap loop emits either fits in `maxLength` or is
a single over-long word of the word pool `W`. -/
theorem wrapLoop_good (maxLength : Nat) (W : List Str) :
    ∀ (ws : List Str) (cur : Str),
      (∀ w ∈ ws, w ∈ W) →
      (cur = [] ∨ cur.length ≤ maxLength ∨ (maxLength < cur.length ∧ cur ∈ W)) →
      ∀ l ∈ wrapLoop maxLength ws cur,
        l.length ≤ maxLength ∨ (maxLength < l.length ∧ l ∈ W) := by
  intro ws
  induction ws with
  | nil =>
    intro cur _ hcur l hl
    simp only [wrapLoop] at hl
    split at hl
    · rename_i hne
      have hcl := List.mem_singleton.mp hl
      subst hcl
      rcases hcur with h | h | h
      · exact absurd h hne
      · exact Or.inl h
      · exact Or.inr h
    · simp at hl
  | cons w ws2 ih =>
    intro cur hws hcur l hl
    simp only [wrapLoop] at hl
    split at hl
    · rename_i hfit
      refine ih _ (fun x hx => hws x (List.mem_cons_of_mem _ hx)) ?_ l hl
      right; left
      by_cases hcn : cur = []
      · subst hcn
        simp at hfit ⊢
        omega
      · simp [hcn] at hfit ⊢
        omega
    · rcases List.mem_append.mp hl with h | h
      · split at h
        · rename_i hne
          have hcl := List.mem_singleton.mp h
          subst hcl
          rcases hcur with h2 | h2 | h2
          · exact absurd h2 hne
          · exact Or.inl h2
          · exact Or.inr h2
        · simp at h
      · refine ih _ (fun x hx => hws x (List.mem_cons_of_mem _ hx)) ?_ l h
        by_cases hwlen : w.length ≤ maxLength
        · right; left; exact hwlen
        · right; right; exact ⟨by omega, hws w (List.mem_cons_self _ _)⟩

/-- C9. Every line emitted by the word-wrap utility has length at most
`maxLength` unless it consists of a single word (an element of the
space-split of the text, containing no space) that itself exceeds
`maxLength`; and Scenario C: `wrap("aaaa bbbb cccc", 9)` is exactly
`"aaaa bbbb"` and `"cccc"`. -/
theorem wrapText_line_invariant (text : Str) (maxLength : Nat) :
    (∀ l ∈ wrapLines text maxLength,
      l.length ≤ maxLength ∨
        (maxLength < l.length ∧ l ∈ splitChar ' ' text ∧ ' ' ∉ l)) ∧
    wrapText (str "aaaa bbbb cccc") 9 = str "aaaa bbbb\ncccc" := by
  constructor
  · intro l hl
    rw [wrapLines] at hl
    split at hl
    · rename_i hfit
      have hcl := List.mem_singleton.mp hl
      subst hcl
      exact Or.inl hfit
    · have hg := wrapLoop_good maxLength (splitChar ' ' text) (splitChar ' ' text) []
        (fun w hw => hw) (Or.inl rfl) l hl
      rcases hg with h | h
      · exact Or.inl h
      · exact Or.inr ⟨h.1, h.2, splitChar_not_mem ' ' text l h.2⟩
  · decide

/-- C9, witness. The first wrapped line of Scenario C satisfies the
invariant. -/
theorem wrapText_line_invariant_witness :
    (str "aaaa bbbb").length ≤ 9 ∨
      (9 < (str "aaaa bbbb").length ∧ str "aaaa bbbb" ∈ splitChar ' ' (str "aaaa bbbb cccc")
        ∧ ' ' ∉ str "aaaa bbbb") :=
  (wrapText_line_invariant (str "aaaa bbbb cccc") 9).1 (str "aaaa bbbb") (by decide)

/-!
## Timestamp-parse lemmas
-/

theorem digitChar_toNat (d : Nat) (hd : d < 10) : (digitChar d).toNat = 48 + d := by
  interval_cases d <;> decide

theorem parseIntDigits_two (a b : Nat) (ha : a < 10) (hb : b < 10) :
    parseIntDigits [digitChar a, digitChar b] = 10 * a + b := by
  simp [parseIntDigits, digitChar_toNat a ha, digitChar_toNat b hb]

theorem parseIntDigits_twoDigits (n : Nat) (h : n < 100) : parseIntDigits (twoDigits n) = n := by
  rw [twoDigits, parseIntDigits_two (n / 10) (n % 10) (by omega) (Nat.mod_lt _ (by omega))]
  omega

theorem matchTail_three (a b c d : Char) (rest : Str)
    (ha : a.isDigit = true) (hb : b.isDigit = true)
    (hc : c.isDigit = true) (hd : d.isDigit = true) :
    matchTail (':' :: a :: b :: ':' :: c :: d :: ']' :: rest) = some ([a, b], some [c, d], 7) := by
  simp [matchTail, ha, hb, hc, hd]

theorem matchTail_two (a b : Char) (rest : Str)
    (ha : a.isDigit = true) (hb : b.isDigit = true) :
    matchTail (':' :: a :: b :: ']' :: rest) = some ([a, b], none, 4) := by
  simp [matchTail, ha, hb]

theorem matchMarker_two_digit_g1 (a b : Char) (tail : Str)
    (ha : a.isDigit = true) (hb : b.isDigit = true) (g2 : Str) (g3 : Option Str) (n : Nat)
    (htail : matchTail tail = some (g2, g3, n)) :
    matchMarker ('[' :: a :: b :: tail) = some ⟨[a, b], g2, g3, 3 + n⟩ := by
  simp [matchMarker, ha, hb, htail]

theorem matchMarker_one_digit_g1 (a : Char) (tail : Str)
    (ha : a.isDigit = true) (g2 : Str) (g3 : Option Str) (n : Nat)
    (htail : matchTail (':' :: tail) = some (g2, g3, n)) :
    matchMarker ('[' :: a :: ':' :: tail) = some ⟨[a], g2, g3, 2 + n⟩ := by
  have hcolon : (':').isDigit = false := by decide
  simp [matchMarker, ha, hcolon, htail]

/-- C6. A marker with three numeric groups parses as HH:MM:SS and one
with two numeric groups as MM:SS with hours 0, with
`offsetSeconds = hours*3600 + minutes*60 + seconds`; in particular
`"[1:02:03]"` yields offset 3723 and `"[02:03]"` yields offset 123. -/
theorem timestamp_marker_offsets :
    (∀ h m s : Nat, h < 100 → m < 100 → s < 100 →
      (matchMarker ('[' :: (twoDigits h ++ ':' :: twoDigits m ++ ':' :: twoDigits s ++ [']']))).map
          (fun mr => offsetOf (mkMatchRec 0 mr)) = some (h * 3600 + m * 60 + s)) ∧
    (∀ m s : Nat, m < 100 → s < 100 →
      (matchMarker ('[' :: (twoDigits m ++ ':' :: twoDigits s ++ [']']))).map
          (fun mr => offsetOf (mkMatchRec 0 mr)) = some (m * 60 + s)) ∧
    parseTextIntoSegments (str "[1:02:03] alpha bravo") = [⟨3723, 3753, str "alpha bravo"⟩] ∧
    parseTextIntoSegments (str "[02:03] alpha bravo") = [⟨123, 153, str "alpha bravo"⟩] := by
  refine ⟨?_, ?_, by decide, by decide⟩
  · intro h m s hh hm hs
    have htail : matchTail (':' :: twoDigits m ++ ':' :: twoDigits s ++ [']']) =
        some (twoDigits m, some (twoDigits s), 7) := by
      simp only [twoDigits, List.cons_append, List.nil_append]
      exact matchTail_three _ _ _ _ []
        (digitChar_isDigit _ (by omega)) (digitChar_isDigit _ (Nat.mod_lt _ (by omega)))
        (digitChar_isDigit _ (by omega)) (digitChar_isDigit _ (Nat.mod_lt _ (by omega)))
    have hmm : matchMarker ('[' :: (twoDigits h ++ ':' :: twoDigits m ++ ':' :: twoDigits s
        ++ [']'])) = some ⟨twoDigits h, twoDigits m, some (twoDigits s), 3 + 7⟩ := by
      have hsplit : '[' :: (twoDigits h ++ ':' :: twoDigits m ++ ':' :: twoDigits s ++ [']']) =
          '[' :: digitChar (h / 10) :: digitChar (h % 10)
            :: (':' :: twoDigits m ++ ':' :: twoDigits s ++ [']']) := by
        simp [twoDigits]
      rw [hsplit,
        matchMarker_two_digit_g1 _ _ _ (digitChar_isDigit _ (by omega))
          (digitChar_isDigit _ (Nat.mod_lt _ (by omega))) _ _ _ htail]
      rfl
    rw [hmm]
    have hoff : offsetOf (mkMatchRec 0 ⟨twoDigits h, twoDigits m, some (twoDigits s), 3 + 7⟩) =
        h * 3600 + m * 60 + s := by
      simp [mkMatchRec, offsetOf, parseIntDigits_twoDigits h hh, parseIntDigits_twoDigits m hm,
        parseIntDigits_twoDigits s hs]
    simp [hoff]
  · intro m s hm hs
    have htail : matchTail (':' :: twoDigits s ++ [']']) =
        some (twoDigits s, none, 4) := by
      simp only [twoDigits, List.cons_append, List.nil_append]
      exact matchTail_two _ _ []
        (digitChar_isDigit _ (by omega)) (digitChar_isDigit _ (Nat.mod_lt _ (by omega)))
    have hmm : matchMarker ('[' :: (twoDigits m ++ ':' :: twoDigits s ++ [']'])) =
        some ⟨twoDigits m, twoDigits s, none, 3 + 4⟩ := by
      have hsplit : '[' :: (twoDigits m ++ ':' :: twoDigits s ++ [']']) =
          '[' :: digitChar (m / 10) :: digitChar (m % 10)
            :: (':' :: twoDigits s ++ [']']) := by
        simp [twoDigits]
      rw [hsplit,
        matchMarker_two_digit_g1 _ _ _ (digitChar_isDigit _ (by omega))
          (digitChar_isDigit _ (Nat.mod_lt _ (by omega))) _ _ _ htail]
      rfl
    rw [hmm]
    have hoff : offsetOf (mkMatchRec 0 ⟨twoDigits m, twoDigits s, none, 3 + 4⟩) =
        m * 60 + s := by
      simp [mkMatchRec, offsetOf, parseIntDigits_twoDigits m hm, parseIntDigits_twoDigits s hs]
    simp [hoff]

/-- C6, witness. The three-group rule instantiated at 1:02:03. -/
theorem timestamp_marker_offsets_witness :
    (matchMarker ('[' :: (twoDigits 1 ++ ':' :: twoDigits 2 ++ ':' :: twoDigits 3 ++ [']']))).map
        (fun mr => offsetOf (mkMatchRec 0 mr)) = some 3723 := by
  have h := timestamp_marker_offsets.1 1 2 3 (by omega) (by omega) (by omega)
  simpa using h

/-!
## Whitespace-split lemmas for the similarity scorer
-/

/-- The whitespace split of a string ending in whitespace contains the
empty piece; `splitWsInRun` also yields it for the empty remainder. -/
theorem splitWs_trailing_empty (s : Str) :
    (∀ acc : Str, (∃ c, s.getLast? = some c ∧ isWsChar c = true) → [] ∈ splitWsGo s acc) ∧
    ((s = [] ∨ ∃ c, s.getLast? = some c ∧ isWsChar c = true) → [] ∈ splitWsInRun s) := by
  induction s with
  | nil =>
    constructor
    · intro acc ⟨c, hc, _⟩
      simp at hc
    · intro _
      simp [splitWsInRun]
  | cons c cs ih =>
    have htransfer : (∃ d, (c :: cs).getLast? = some d ∧ isWsChar d = true) → cs ≠ [] →
        ∃ d, cs.getLast? = some d ∧ isWsChar d = true := by
      rintro ⟨d, hd, hw⟩ hne
      refine ⟨d, ?_, hw⟩
      cases cs with
      | nil => exact absurd rfl hne
      | cons c2 cs2 =>
        rw [List.getLast?_cons_cons] at hd
        exact hd
    constructor
    · intro acc hex
      simp only [splitWsGo]
      split
      · rename_i hws
        refine List.mem_cons_of_mem _ (ih.2 ?_)
        by_cases hcs : cs = []
        · exact Or.inl hcs
        · exact Or.inr (htransfer hex hcs)
      · rename_i hws
        by_cases hcs : cs = []
        · subst hcs
          rcases hex with ⟨d, hd, hw⟩
          simp at hd
          subst hd
          exact absurd hw hws
        · exact ih.1 _ (htransfer hex hcs)
    · intro hex
      rcases hex with hex | hex
      · simp at hex
      · simp only [splitWsInRun]
        split
        · refine ih.2 ?_
          by_cases hcs : cs = []
          · exact Or.inl hcs
          · exact Or.inr (htransfer hex hcs)
        · rename_i hws
          by_cases hcs : cs = []
          · subst hcs
            rcases hex with ⟨d, hd, hw⟩
            simp at hd
            subst hd
            exact absurd hw hws
          · exact ih.1 _ (htransfer hex hcs)

/-- A non-empty string with leading or trailing whitespace splits into a
list containing the empty piece. -/
theorem nil_mem_splitWs (s : Str) (hs : s ≠ []) (h : edgeWs s = true) : [] ∈ splitWs s := by
  rcases Bool.or_eq_true_iff.mp (by simpa [edgeWs] using h) with h1 | h1
  · cases s with
    | nil => exact absurd rfl hs
    | cons c cs =>
      simp only [List.head?] at h1
      rw [splitWs, splitWsGo]
      simp only [h1, if_true]
      exact List.mem_cons_self _ _
  · rcases hgl : s.getLast? with _ | d
    · rw [hgl] at h1; simp at h1
    · rw [hgl] at h1
      exact (splitWs_trailing_empty s).1 [] ⟨d, hgl, h1⟩

/-- C10. The similarity scorer returns 1 on the two distinct
whitespace-only strings `" "` and `"  "` (splitting on whitespace yields a
shared empty token), and any two non-equal strings that both carry leading
or trailing whitespace score strictly above 0 even with no shared visible
words. -/
theorem calculateSimilarity_edge_ws :
    calculateSimilarity (str " ") (str "  ") = 1 ∧
    ∀ s1 s2 : Str, s1 ≠ s2 → edgeWs s1 = true → edgeWs s2 = true →
      0 < calculateSimilarity s1 s2 := by
  refine ⟨by decide, ?_⟩
  intro s1 s2 hne h1 h2
  have hs1 : s1 ≠ [] := by
    intro hcon
    subst hcon
    simp [edgeWs] at h1
  have hs2 : s2 ≠ [] := by
    intro hcon
    subst hcon
    simp [edgeWs] at h2
  have hval : calculateSimilarity s1 s2 =
      ((((splitWs s1).dedup.filter (fun w => w ∈ splitWs s2)).length : ℚ)) /
        ((((splitWs s1 ++ splitWs s2).dedup).length : ℚ)) := by
    rw [calculateSimilarity, if_neg (by push_neg; exact ⟨hs1, hs2⟩), if_neg hne]
  rw [hval]
  apply div_pos
  · have hmem : ([] : Str) ∈ (splitWs s1).dedup.filter (fun w => w ∈ splitWs s2) :=
      List.mem_filter.mpr ⟨List.mem_dedup.mpr (nil_mem_splitWs s1 hs1 h1),
        decide_eq_true (nil_mem_splitWs s2 hs2 h2)⟩
    exact_mod_cast List.length_pos.mpr (List.ne_nil_of_mem hmem)
  · have hmem : ([] : Str) ∈ (splitWs s1 ++ splitWs s2).dedup :=
      List.mem_dedup.mpr (List.mem_append.mpr (Or.inl (nil_mem_splitWs s1 hs1 h1)))
    exact_mod_cast List.length_pos.mpr (List.ne_nil_of_mem hmem)

/-- C10, witness. Two distinct strings with leading whitespace and no
shared visible word score strictly above 0. -/
theorem calculateSimilarity_edge_ws_witness :
    0 < calculateSimilarity (str " a") (str " b") :=
  calculateSimilarity_edge_ws.2 (str " a") (str " b") (by decide) (by decide) (by decide)

end Transcript
